import Mathlib

/-!
Verification of the asset acquisition and installation pipeline of the
godot-launcher repository (src/utils.py, src/project_handler.py,
src/api_clients.py) against its specification.

The filesystem trees that `extract_zip` manipulates are modelled as finite
labelled trees; the worker threads (`DownloadThread`, `ExtensionInstaller`)
and the sequential queue (`install_extensions_logic`) are modelled as pure
functions over an explicit environment recording the outcome of each
external effect (network connection, chunk stream, mkdir/unlink success,
and the points at which the cooperative stop flag is observed).
-/

namespace GodotLauncher

/-- A node of an on-disk filesystem tree: a regular file (with abstract
content), a regular file that is a valid zip archive (`zipfile.is_zipfile`
returns True; its parsed entry list is carried), or a directory with a
list of named children in directory-iteration order. -/
inductive FsNode where
  | file (content : Nat)
  | zipf (entries : List (String × FsNode))
  | dir (entries : List (String × FsNode))

abbrev Entries := List (String × FsNode)

/-- Lookup of a child by name (the first entry with that name). -/
def lookupEntry : Entries → String → Option FsNode
  | [], _ => none
  | (k, v) :: es, n => if k = n then some v else lookupEntry es n

/-- Replace the first entry named `n` by `v`, or append `(n, v)` if absent. -/
def setEntry : Entries → String → FsNode → Entries
  | [], n, v => [(n, v)]
  | (k, w) :: es, n, v => if k = n then (k, v) :: es else (k, w) :: setEntry es n v

mutual

/-- Model of one iteration of the copy loop in `find_and_process_addons`
(utils.py lines 391-401): `shutil.copytree(item, dest / item.name,
dirs_exist_ok=True)` for directories and `shutil.copy2(item, dest / item.name)`
for files.  Python semantics modelled:
copytree merges into an existing directory, overwrites an existing file
entry inside it, and raises (`none`) when the target of a directory is an
existing non-directory; copy2 onto an existing directory places the file
inside that directory under its own name, and raises when that inner slot
is itself a directory.  A raised copy error is modelled atomically (the
partially written content is not tracked). -/
def copy_item (dest : Entries) (n : String) (v : FsNode) : Option Entries :=
  match v with
  | .dir s =>
    match lookupEntry dest n with
    | some (.file _) => none
    | some (.zipf _) => none
    | some (.dir e) =>
      match copy_items s e with
      | none => none
      | some m => some (setEntry dest n (.dir m))
    | none => some (setEntry dest n (.dir s))
  | .file c =>
    match lookupEntry dest n with
    | some (.dir e) =>
      match lookupEntry e n with
      | some (.dir _) => none
      | _ => some (setEntry dest n (.dir (setEntry e n (.file c))))
    | _ => some (setEntry dest n (.file c))
  | .zipf z =>
    match lookupEntry dest n with
    | some (.dir e) =>
      match lookupEntry e n with
      | some (.dir _) => none
      | _ => some (setEntry dest n (.dir (setEntry e n (.zipf z))))
    | _ => some (setEntry dest n (.zipf z))

/-- Model of the whole copy loop of `find_and_process_addons`
(utils.py lines 391-401): copy every `(name, node)` of `src` into `dest`
in iteration order, stopping at the first copy error. -/
def copy_items (src : Entries) (dest : Entries) : Option Entries :=
  match src with
  | [] => some dest
  | (n, v) :: rest =>
    match copy_item dest n v with
    | none => none
    | some d => copy_items rest d

end

/-- Entry names are pairwise distinct (as the names of the children of a real
directory are). -/
def nodupKeysB : Entries → Bool
  | [] => true
  | (k, _) :: es => !(es.any fun p => p.1 == k) && nodupKeysB es

mutual

/-- Every directory (and every parsed zip archive) in the tree has pairwise
distinct child names. -/
def wfNode : FsNode → Bool
  | .file _ => true
  | .zipf es => nodupKeysB es && wfEntries es
  | .dir es => nodupKeysB es && wfEntries es

/-- All nodes of a directory listing are well formed. -/
def wfEntries : Entries → Bool
  | [] => true
  | (_, v) :: es => wfNode v && wfEntries es

end

/-- A directory listing of a real on-disk directory: distinct names and well
formed children. -/
def wfDir (es : Entries) : Bool :=
  nodupKeysB es && wfEntries es

theorem lookup_setEntry_self (d : Entries) (n : String) (v : FsNode) :
    lookupEntry (setEntry d n v) n = some v := by
  induction d with
  | nil => simp [setEntry, lookupEntry]
  | cons p es ih =>
    obtain ⟨k, w⟩ := p
    by_cases h : k = n <;> simp [setEntry, lookupEntry, h, ih]

theorem lookup_setEntry_ne (d : Entries) (n m : String) (v : FsNode)
    (h : m ≠ n) : lookupEntry (setEntry d n v) m = lookupEntry d m := by
  have hnm : ¬(n = m) := fun h2 => h h2.symm
  induction d with
  | nil => simp [setEntry, lookupEntry, hnm]
  | cons p es ih =>
    obtain ⟨k, w⟩ := p
    by_cases hk : k = n
    · subst hk
      simp [setEntry, lookupEntry, hnm, h]
    · by_cases hm : k = m
      · subst hm
        simp [setEntry, lookupEntry, hk]
      · simp [setEntry, lookupEntry, hk, hm, ih]

theorem setEntry_lookup_eq (d : Entries) (n : String) (v : FsNode)
    (h : lookupEntry d n = some v) : setEntry d n v = d := by
  induction d with
  | nil => simp [lookupEntry] at h
  | cons p es ih =>
    obtain ⟨k, w⟩ := p
    by_cases hk : k = n
    · subst hk
      simp [lookupEntry] at h
      simp [setEntry, h]
    · simp [lookupEntry, hk] at h
      simp [setEntry, hk, ih h]

theorem copy_item_shape (d : Entries) (n : String) (v : FsNode) (d2 : Entries)
    (h : copy_item d n v = some d2) : ∃ w, d2 = setEntry d n w := by
  cases v <;> simp only [copy_item] at h <;> repeat' split at h
  all_goals first
    | exact ⟨_, by injection h with h2; exact h2.symm⟩
    | exact absurd h (by simp)

theorem copy_item_lookup_ne (d : Entries) (n m : String) (v : FsNode)
    (d2 : Entries) (h : copy_item d n v = some d2) (hm : m ≠ n) :
    lookupEntry d2 m = lookupEntry d m := by
  obtain ⟨w, rfl⟩ := copy_item_shape d n v d2 h
  exact lookup_setEntry_ne d n m w hm

theorem copy_items_lookup_ne (s : Entries) (d d2 : Entries) (m : String)
    (h : copy_items s d = some d2) (hm : ∀ p ∈ s, p.1 ≠ m) :
    lookupEntry d2 m = lookupEntry d m := by
  induction s generalizing d with
  | nil => simp [copy_items] at h; rw [h]
  | cons p rest ih =>
    obtain ⟨n, v⟩ := p
    simp only [copy_items] at h
    split at h
    · exact absurd h (by simp)
    next d1 hc =>
      have h1 := ih d1 h (fun q hq => hm q (List.mem_cons_of_mem _ hq))
      have hmn : m ≠ n := fun he => hm (n, v) (List.mem_cons_self _ _) he.symm
      rw [h1, copy_item_lookup_ne d n m v d1 hc hmn]

theorem lookup_of_mem_nodup (t : Entries) (m : String) (w : FsNode)
    (hN : nodupKeysB t = true) (hmem : (m, w) ∈ t) :
    lookupEntry t m = some w := by
  induction t with
  | nil => simp at hmem
  | cons p rest ih =>
    obtain ⟨k, u⟩ := p
    simp only [nodupKeysB, Bool.and_eq_true, Bool.not_eq_true'] at hN
    rcases List.mem_cons.mp hmem with h1 | h1
    · injection h1 with hk hu
      simp [lookupEntry, hk, hu]
    · have hkm : ¬(k = m) := by
        intro he
        subst he
        have : rest.any (fun p => p.1 == k) = true :=
          List.any_eq_true.mpr ⟨(k, w), h1, by simp⟩
        rw [this] at hN
        exact absurd hN.1 (by simp)
      simp [lookupEntry, hkm, ih hN.2 h1]

theorem sizeOf_lt_cons (n : String) (v : FsNode) (rest : Entries) :
    sizeOf v < sizeOf ((n, v) :: rest) := by
  simp
  omega

theorem sizeOf_rest_lt_cons (p : String × FsNode) (rest : Entries) :
    sizeOf rest < sizeOf (p :: rest) := by
  simp

theorem sizeOf_dir_entries_lt (n : String) (t : Entries) (rest : Entries) :
    sizeOf t < sizeOf ((n, FsNode.dir t) :: rest) := by
  have h1 := sizeOf_lt_cons n (FsNode.dir t) rest
  have h2 : sizeOf t < sizeOf (FsNode.dir t) := by
    simp
  omega

theorem copy_items_self_fixed :
    ∀ (N : Nat) (s d : Entries), sizeOf s ≤ N → wfEntries s = true →
      (∀ p ∈ s, lookupEntry d p.1 = some p.2) → copy_items s d = some d := by
  intro N
  induction N with
  | zero =>
    intro s d hs _ _
    have : 0 < sizeOf s := by cases s <;> simp
    omega
  | succ N ih =>
    intro s d hs hwf hlk
    cases s with
    | nil => rfl
    | cons p rest =>
      obtain ⟨n, v⟩ := p
      have hv : lookupEntry d n = some v := hlk (n, v) (List.mem_cons_self _ _)
      simp only [wfEntries, Bool.and_eq_true] at hwf
      have hci : copy_item d n v = some d := by
        cases v with
        | file c =>
          simp only [copy_item, hv]
          rw [setEntry_lookup_eq d n _ hv]
        | zipf z =>
          simp only [copy_item, hv]
          rw [setEntry_lookup_eq d n _ hv]
        | dir t =>
          have hwfn := hwf.1
          simp only [wfNode, Bool.and_eq_true] at hwfn
          have htN : sizeOf t ≤ N := by
            have := sizeOf_dir_entries_lt n t rest
            omega
          have hself : copy_items t t = some t :=
            ih t t htN hwfn.2
              (fun q hq => lookup_of_mem_nodup t q.1 q.2 hwfn.1 hq)
          simp only [copy_item, hv, hself]
          rw [setEntry_lookup_eq d n _ hv]
      simp only [copy_items, hci]
      have hrN : sizeOf rest ≤ N := by
        have := sizeOf_rest_lt_cons (n, v) rest
        omega
      exact ih rest d hrN hwf.2
        (fun q hq => hlk q (List.mem_cons_of_mem _ hq))

theorem copy_items_idem :
    ∀ (N : Nat) (s d d2 : Entries), sizeOf s ≤ N → nodupKeysB s = true →
      wfEntries s = true → copy_items s d = some d2 →
      copy_items s d2 = some d2 := by
  intro N
  induction N with
  | zero =>
    intro s d d2 hs _ _ _
    have : 0 < sizeOf s := by cases s <;> simp
    omega
  | succ N ih =>
    intro s d d2 hs hnd hwf h
    cases s with
    | nil =>
      simp only [copy_items, Option.some.injEq] at h
      subst h
      rfl
    | cons p rest =>
      obtain ⟨n, v⟩ := p
      simp only [copy_items] at h
      simp only [nodupKeysB, Bool.and_eq_true, Bool.not_eq_true'] at hnd
      simp only [wfEntries, Bool.and_eq_true] at hwf
      split at h
      · exact absurd h (by simp)
      next d1 hc =>
        have hrest_ne : ∀ p ∈ rest, p.1 ≠ n := by
          intro q hq he
          have : rest.any (fun p => p.1 == n) = true :=
            List.any_eq_true.mpr ⟨q, hq, by simp [he]⟩
          rw [this] at hnd
          exact absurd hnd.1 (by simp)
        have hl21 : lookupEntry d2 n = lookupEntry d1 n :=
          copy_items_lookup_ne rest d1 d2 n h hrest_ne
        have hrN : sizeOf rest ≤ N := by
          have := sizeOf_rest_lt_cons (n, v) rest
          omega
        have hci2 : copy_item d2 n v = some d2 := by
          cases v with
          | file c =>
            simp only [copy_item] at hc
            split at hc
            next e he =>
              split at hc
              · exact absurd hc (by simp)
              next hnotdir =>
                injection hc with hc1
                have he1 : lookupEntry d1 n = some (.dir (setEntry e n (.file c))) := by
                  rw [← hc1]
                  exact lookup_setEntry_self d n _
                have he2 : lookupEntry d2 n = some (.dir (setEntry e n (.file c))) := by
                  rw [hl21]; exact he1
                have hin : lookupEntry (setEntry e n (.file c)) n = some (.file c) :=
                  lookup_setEntry_self e n _
                simp only [copy_item, he2, hin]
                rw [setEntry_lookup_eq _ n _ hin, setEntry_lookup_eq d2 n _ he2]
            next hnotdir =>
              injection hc with hc1
              have he1 : lookupEntry d1 n = some (.file c) := by
                rw [← hc1]
                exact lookup_setEntry_self d n _
              have he2 : lookupEntry d2 n = some (.file c) := by
                rw [hl21]; exact he1
              simp only [copy_item, he2]
              rw [setEntry_lookup_eq d2 n _ he2]
          | zipf z =>
            simp only [copy_item] at hc
            split at hc
            next e he =>
              split at hc
              · exact absurd hc (by simp)
              next hnotdir =>
                injection hc with hc1
                have he1 : lookupEntry d1 n = some (.dir (setEntry e n (.zipf z))) := by
                  rw [← hc1]
                  exact lookup_setEntry_self d n _
                have he2 : lookupEntry d2 n = some (.dir (setEntry e n (.zipf z))) := by
                  rw [hl21]; exact he1
                have hin : lookupEntry (setEntry e n (.zipf z)) n = some (.zipf z) :=
                  lookup_setEntry_self e n _
                simp only [copy_item, he2, hin]
                rw [setEntry_lookup_eq _ n _ hin, setEntry_lookup_eq d2 n _ he2]
            next hnotdir =>
              injection hc with hc1
              have he1 : lookupEntry d1 n = some (.zipf z) := by
                rw [← hc1]
                exact lookup_setEntry_self d n _
              have he2 : lookupEntry d2 n = some (.zipf z) := by
                rw [hl21]; exact he1
              simp only [copy_item, he2]
              rw [setEntry_lookup_eq d2 n _ he2]
          | dir t =>
            have hwfn := hwf.1
            simp only [wfNode, Bool.and_eq_true] at hwfn
            have htN : sizeOf t ≤ N := by
              have := sizeOf_dir_entries_lt n t rest
              omega
            simp only [copy_item] at hc
            split at hc
            · exact absurd hc (by simp)
            · exact absurd hc (by simp)
            next e he =>
              split at hc
              · exact absurd hc (by simp)
              next m1 hm1 =>
                injection hc with hc1
                have he1 : lookupEntry d1 n = some (.dir m1) := by
                  rw [← hc1]
                  exact lookup_setEntry_self d n _
                have he2 : lookupEntry d2 n = some (.dir m1) := by
                  rw [hl21]; exact he1
                have hmm : copy_items t m1 = some m1 :=
                  ih t e m1 htN hwfn.1 hwfn.2 hm1
                simp only [copy_item, he2, hmm]
                rw [setEntry_lookup_eq d2 n _ he2]
            next he =>
              injection hc with hc1
              have he1 : lookupEntry d1 n = some (.dir t) := by
                rw [← hc1]
                exact lookup_setEntry_self d n _
              have he2 : lookupEntry d2 n = some (.dir t) := by
                rw [hl21]; exact he1
              have hself : copy_items t t = some t :=
                copy_items_self_fixed N t t htN hwfn.2
                  (fun q hq => lookup_of_mem_nodup t q.1 q.2 hwfn.1 hq)
              simp only [copy_item, he2, hself]
              rw [setEntry_lookup_eq d2 n _ he2]
        simp only [copy_items, hci2]
        exact ih rest d1 d2 hrN hnd.2 hwf.2 h

theorem lookup_sizeOf_lt (cur : Entries) (k : String) (v : FsNode)
    (h : lookupEntry cur k = some v) : sizeOf v < sizeOf cur := by
  induction cur with
  | nil => simp [lookupEntry] at h
  | cons p rest ih =>
    obtain ⟨n, w⟩ := p
    simp only [lookupEntry] at h
    by_cases hn : n = k
    · rw [if_pos hn] at h
      injection h with h1
      subst h1
      exact sizeOf_lt_cons n _ rest
    · rw [if_neg hn] at h
      have := ih h
      have h2 := sizeOf_rest_lt_cons (n, w) rest
      omega

theorem sizeOf_zipf_entries_lt (n : String) (z : Entries) (rest : Entries) :
    sizeOf z < sizeOf ((n, FsNode.zipf z) :: rest) := by
  have h1 := sizeOf_lt_cons n (FsNode.zipf z) rest
  have h2 : sizeOf z < sizeOf (FsNode.zipf z) := by
    simp
  omega

/-- Model of `str.lower()` applied to an entry name. -/
def lowerName (s : String) : String :=
  ⟨s.data.map Char.toLower⟩

/-- The check of utils.py line 406: a regular file whose lowercased name is
`addons.zip` or `addons`. -/
def isAddonsZipName (n : String) : Bool :=
  lowerName n == "addons.zip" || lowerName n == "addons"

/-- Outcome of one call of the recursive scan `find_and_process_addons`:
an exception escaped the call (a copy error at the destination), no
`addons` marker was found in this branch (the Python function returns
False), or an `addons` directory was found and its contents were copied
into the destination, giving the new destination listing (returns True). -/
inductive ScanResult where
  | err
  | notFound
  | found (d : Entries)

mutual

/-- Model of `find_and_process_addons` (utils.py lines 356-433) for the
scratch directory listing `cur` and destination listing `dest`.
Level order, as in the source: if an entry named exactly `addons` exists
and is a zip file, extract it and restart the scan inside it (an exception
escaping that nested scan is swallowed by the `except` of line 384 and
scanning falls through); if it is a directory, copy its contents into the
destination and stop; otherwise fall through to the loop over files named
`addons.zip`/`addons` (lines 405-423) and then to the recursive loop over
subdirectories (lines 426-430). -/
def find_and_process_addons (cur : Entries) (dest : Entries) : ScanResult :=
  match h : lookupEntry cur "addons" with
  | some (.zipf inner) =>
    match find_and_process_addons inner dest with
    | .err => scan_loops cur dest
    | r => r
  | some (.dir s) =>
    match copy_items s dest with
    | none => .err
    | some d => .found d
  | _ => scan_loops cur dest
termination_by (sizeOf cur, 2)
decreasing_by
  all_goals first
    | exact Prod.Lex.right _ (by omega)
    | exact Prod.Lex.left _ _ (by simp <;> omega)
    | (have h1 := lookup_sizeOf_lt cur "addons" (.zipf inner) h
       have h2 : sizeOf inner < sizeOf (FsNode.zipf inner) := by simp
       exact Prod.Lex.left _ _ (by omega))

/-- The two sibling loops of `find_and_process_addons` run in order: first
the loop over files named `addons.zip`/`addons` (utils.py lines 405-423),
then the loop over subdirectories (lines 426-430). -/
def scan_loops (cur : Entries) (dest : Entries) : ScanResult :=
  match scan_zip_names cur dest with
  | some r => r
  | none => scan_subdirs cur dest
termination_by (sizeOf cur, 1)
decreasing_by
  all_goals exact Prod.Lex.right _ (by omega)

/-- Loop of utils.py lines 405-423: the first regular file whose lowercased
name is `addons.zip` or `addons` and which is a valid zip is extracted and
the scan restarts inside it, returning that nested result (an exception
from the nested scan is swallowed by the `except` of line 422 and the loop
continues).  `none` means the loop finished without returning. -/
def scan_zip_names (items : Entries) (dest : Entries) : Option ScanResult :=
  match items with
  | [] => none
  | (n, v) :: rest =>
    match v with
    | .zipf z =>
      if isAddonsZipName n then
        match find_and_process_addons z dest with
        | .err => scan_zip_names rest dest
        | r => some r
      else scan_zip_names rest dest
    | _ => scan_zip_names rest dest
termination_by (sizeOf items, 0)
decreasing_by
  all_goals exact Prod.Lex.left _ _ (by simp <;> omega)

/-- Loop of utils.py lines 426-430: recursively scan each subdirectory,
returning True as soon as one scan succeeds; exceptions propagate (this
loop is not inside a `try`). -/
def scan_subdirs (items : Entries) (dest : Entries) : ScanResult :=
  match items with
  | [] => .notFound
  | (n, v) :: rest =>
    match v with
    | .dir s =>
      match find_and_process_addons s dest with
      | .found d => .found d
      | .err => .err
      | .notFound => scan_subdirs rest dest
    | _ => scan_subdirs rest dest
termination_by (sizeOf items, 0)
decreasing_by
  all_goals exact Prod.Lex.left _ _ (by simp <;> omega)

end

/-- Payload selection of the no-addons fallback (utils.py lines 444-458):
if the scratch root holds exactly one entry and it is a directory, the
payload is that directory's contents; otherwise (single non-directory
entry, or several entries, or none) the payload is the root listing
itself. -/
def fallback_payload (root : Entries) : Entries :=
  match root with
  | [(_, .dir s)] => s
  | _ => root

/-- The no-addons fallback copy (utils.py lines 439-465): create
`destination/addons` (`mkdir(parents=True, exist_ok=True)` raises when the
destination already holds a non-directory entry named `addons`) and copy
the payload into it with the same copytree/copy2 loop as elsewhere. -/
def fallback_copy (root : Entries) (dest : Entries) : Option Entries :=
  match lookupEntry dest "addons" with
  | some (.file _) => none
  | some (.zipf _) => none
  | some (.dir a) =>
    match copy_items (fallback_payload root) a with
    | none => none
    | some m => some (setEntry dest "addons" (.dir m))
  | none =>
    match copy_items (fallback_payload root) [] with
    | none => none
    | some m => some (setEntry dest "addons" (.dir m))

/-- Model of `extract_zip(zip_path, destination_dir, remove_common_prefix=True)`
(utils.py lines 306-479) in the smart mode used by the installation
pipeline (project_handler.py line 597 always passes True).
`zipIsFile` models `zip_path_obj.is_file()`; `archive` is the parsed
archive listing (`none` when `zipfile.ZipFile` raises because the file is
corrupt or unreadable); `dest` is the destination directory listing.
Every exception, including the `FileNotFoundError` raised at line 336, is
caught by the outermost handler (line 477) and becomes `False`.  On
failure the returned listing is the original one (the real code may leave
the destination partially populated; failures are modelled atomically).
Scratch-directory cleanup (lines 470-475) has no bearing on the returned
value. -/
def extract_zip (zipIsFile : Bool) (archive : Option Entries) (dest : Entries) :
    Bool × Entries :=
  if zipIsFile = false then (false, dest)
  else
    match archive with
    | none => (false, dest)
    | some root =>
      match find_and_process_addons root dest with
      | .err => (false, dest)
      | .found d => (true, d)
      | .notFound =>
        match fallback_copy root dest with
        | none => (false, dest)
        | some d => (true, d)

theorem setEntry_of_lookup_none (d : Entries) (n : String) (v : FsNode)
    (h : lookupEntry d n = none) : setEntry d n v = d ++ [(n, v)] := by
  induction d with
  | nil => simp [setEntry]
  | cons p es ih =>
    obtain ⟨k, w⟩ := p
    simp only [lookupEntry] at h
    by_cases hk : k = n
    · rw [if_pos hk] at h
      exact absurd h (by simp)
    · rw [if_neg hk] at h
      simp [setEntry, hk, ih h]

theorem copy_item_fresh (d : Entries) (n : String) (v : FsNode)
    (h : lookupEntry d n = none) : copy_item d n v = some (d ++ [(n, v)]) := by
  cases v <;> simp only [copy_item, h] <;>
    rw [setEntry_of_lookup_none d n _ h]

theorem lookup_append_single (d : Entries) (n m : String) (v : FsNode)
    (h : lookupEntry d m = none) (hnm : ¬(n = m)) :
    lookupEntry (d ++ [(n, v)]) m = none := by
  induction d with
  | nil => simp [lookupEntry, hnm]
  | cons r es ih =>
    obtain ⟨k, w⟩ := r
    simp only [lookupEntry, List.cons_append] at h ⊢
    by_cases hk : k = m
    · rw [if_pos hk] at h
      exact absurd h (by simp)
    · rw [if_neg hk] at h
      rw [if_neg hk]
      exact ih h

theorem copy_items_fresh (xs : Entries) :
    ∀ d : Entries, (∀ p ∈ xs, lookupEntry d p.1 = none) →
      nodupKeysB xs = true → copy_items xs d = some (d ++ xs) := by
  induction xs with
  | nil => intro d _ _; simp [copy_items]
  | cons p rest ih =>
    intro d hfresh hnd
    obtain ⟨n, v⟩ := p
    simp only [nodupKeysB, Bool.and_eq_true, Bool.not_eq_true'] at hnd
    have hn : lookupEntry d n = none := hfresh (n, v) (List.mem_cons_self _ _)
    simp only [copy_items, copy_item_fresh d n v hn]
    have hrest : ∀ q ∈ rest, lookupEntry (d ++ [(n, v)]) q.1 = none := by
      intro q hq
      have hqn : ¬(n = q.1) := by
        intro he
        have : rest.any (fun p => p.1 == n) = true :=
          List.any_eq_true.mpr ⟨q, hq, by simp [he]⟩
        rw [this] at hnd
        exact absurd hnd.1 (by simp)
      have hq0 : lookupEntry d q.1 = none := hfresh q (List.mem_cons_of_mem _ hq)
      exact lookup_append_single d n q.1 v hq0 hqn
    rw [ih (d ++ [(n, v)]) hrest hnd.2]
    simp

/-- No marker that the scan of `find_and_process_addons` reacts to occurs
anywhere in the tree: no entry named exactly `addons` at any directory
level, and no zip file whose lowercased name is `addons.zip` or `addons`. -/
def noAddonsMarker : Entries → Bool
  | [] => true
  | (n, v) :: rest =>
    !(n == "addons") &&
    (match v with
     | .dir s => noAddonsMarker s
     | .zipf _ => !(isAddonsZipName n)
     | .file _ => true) &&
    noAddonsMarker rest

theorem noMarker_lookup (cur : Entries) (h : noAddonsMarker cur = true) :
    lookupEntry cur "addons" = none := by
  induction cur with
  | nil => rfl
  | cons p rest ih =>
    obtain ⟨n, v⟩ := p
    cases v <;>
      simp only [noAddonsMarker, Bool.and_eq_true, Bool.not_eq_true',
        Bool.and_true, Bool.true_and] at h
    case file c =>
      have hn : ¬(n = "addons") := by
        intro he
        rw [he] at h
        simp at h
      simp only [lookupEntry, if_neg hn]
      exact ih h.2
    case zipf z =>
      have hn : ¬(n = "addons") := by
        intro he
        rw [he] at h
        simp at h
      simp only [lookupEntry, if_neg hn]
      exact ih h.2
    case dir s =>
      have hn : ¬(n = "addons") := by
        intro he
        rw [he] at h
        simp at h
      simp only [lookupEntry, if_neg hn]
      exact ih h.2

theorem noMarker_zip_names (items : Entries) (dest : Entries)
    (h : noAddonsMarker items = true) : scan_zip_names items dest = none := by
  induction items generalizing dest with
  | nil => rw [scan_zip_names]
  | cons p rest ih =>
    obtain ⟨n, v⟩ := p
    cases v with
    | file c =>
      simp only [noAddonsMarker, Bool.and_eq_true] at h
      simp only [scan_zip_names]
      exact ih dest h.2
    | dir s =>
      simp only [noAddonsMarker, Bool.and_eq_true] at h
      simp only [scan_zip_names]
      exact ih dest h.2
    | zipf z =>
      simp only [noAddonsMarker, Bool.and_eq_true, Bool.not_eq_true'] at h
      simp only [scan_zip_names, h.1.2]
      simp only [Bool.false_eq_true, if_false]
      exact ih dest h.2

theorem noMarker_notFound :
    ∀ (N : Nat) (cur dest : Entries), sizeOf cur ≤ N →
      noAddonsMarker cur = true →
      find_and_process_addons cur dest = .notFound ∧
      scan_subdirs cur dest = .notFound := by
  intro N
  induction N with
  | zero =>
    intro cur dest hs _
    have : 0 < sizeOf cur := by cases cur <;> simp
    omega
  | succ N ih =>
    intro cur dest hs hm
    have hsubAll : ∀ items : Entries, sizeOf items ≤ Nat.succ N →
        noAddonsMarker items = true → scan_subdirs items dest = .notFound := by
      intro items
      induction items with
      | nil =>
        intro _ _
        simp [scan_subdirs]
      | cons p rest ih2 =>
        intro hbound hmk
        obtain ⟨n, v⟩ := p
        have hrb : sizeOf rest ≤ Nat.succ N := by
          have := sizeOf_rest_lt_cons (n, v) rest
          omega
        cases v with
        | file c =>
          simp only [noAddonsMarker, Bool.and_eq_true] at hmk
          simp only [scan_subdirs]
          exact ih2 hrb hmk.2
        | zipf z =>
          simp only [noAddonsMarker, Bool.and_eq_true] at hmk
          simp only [scan_subdirs]
          exact ih2 hrb hmk.2
        | dir s =>
          simp only [noAddonsMarker, Bool.and_eq_true] at hmk
          have hsN : sizeOf s ≤ N := by
            have := sizeOf_dir_entries_lt n s rest
            omega
          have hfs := (ih s dest hsN hmk.1.2).1
          simp only [scan_subdirs, hfs]
          exact ih2 hrb hmk.2
    have hsub := hsubAll cur hs hm
    refine ⟨?_, hsub⟩
    rw [find_and_process_addons.eq_def, noMarker_lookup cur hm]
    rw [scan_loops.eq_def, noMarker_zip_names cur dest hm]
    exact hsub

/-- C7: extraction merges into an existing destination (same-named
directories are merged recursively by `shutil.copytree(dirs_exist_ok=True)`
and same-named files are overwritten, as modelled by `copy_item`), so
extracting the same archive — one containing an `addons` folder at its
root, e.g. `addons/SomeAddon` — twice into the same destination leaves the
destination listing identical to the state after the first extraction. -/
theorem extract_zip_twice_idempotent (root s d d2 : Entries)
    (haddons : lookupEntry root "addons" = some (.dir s))
    (hnd : nodupKeysB s = true) (hwf : wfEntries s = true)
    (h1 : extract_zip true (some root) d = (true, d2)) :
    extract_zip true (some root) d2 = (true, d2) := by
  have hf : ∀ dX : Entries, find_and_process_addons root dX =
      (match copy_items s dX with
       | none => ScanResult.err
       | some dd => ScanResult.found dd) := by
    intro dX
    rw [find_and_process_addons.eq_def, haddons]
  simp only [extract_zip, Bool.true_eq_false, if_false, hf] at h1 ⊢
  have hcopy : copy_items s d = some d2 := by
    cases hc : copy_items s d with
    | none => rw [hc] at h1; simp at h1
    | some dd =>
      rw [hc] at h1
      simp only [Prod.mk.injEq] at h1
      rw [h1.2]
  rw [copy_items_idem (sizeOf s) s d d2 le_rfl hnd hwf hcopy]

/-- Witness for C7 at a concrete archive `addons/SomeAddon/plugin.cfg`
extracted twice into an initially empty destination. -/
theorem extract_zip_twice_idempotent_witness :
    extract_zip true
      (some [("addons", .dir [("SomeAddon", .dir [("plugin.cfg", .file 1)])])])
      [("SomeAddon", .dir [("plugin.cfg", .file 1)])] =
      (true, [("SomeAddon", .dir [("plugin.cfg", .file 1)])]) := by
  have h1 : extract_zip true
      (some [("addons", .dir [("SomeAddon", .dir [("plugin.cfg", .file 1)])])])
      [] = (true, [("SomeAddon", .dir [("plugin.cfg", .file 1)])]) := by
    simp [extract_zip, find_and_process_addons.eq_def, lookupEntry,
      copy_items, copy_item, setEntry]
  exact extract_zip_twice_idempotent
    [("addons", .dir [("SomeAddon", .dir [("plugin.cfg", .file 1)])])]
    [("SomeAddon", .dir [("plugin.cfg", .file 1)])]
    [] [("SomeAddon", .dir [("plugin.cfg", .file 1)])]
    (by simp [lookupEntry]) (by rfl) (by rfl) h1

/-- C8: when the extracted archive contains no `addons` marker anywhere in
its tree, the payload is copied under `destinationDir/addons`: if the
scratch root holds exactly one top-level entry and it is a directory, that
directory's contents become the payload; otherwise all top-level entries
are the payload, copied directly and intact (shown here for an initially
empty destination). -/
theorem extract_zip_no_addons_fallback (root : Entries)
    (hm : noAddonsMarker root = true)
    (hnd : nodupKeysB (fallback_payload root) = true) :
    extract_zip true (some root) [] =
      (true, [("addons", .dir (fallback_payload root))]) ∧
    (∀ n s, root = [(n, FsNode.dir s)] → fallback_payload root = s) ∧
    ((∀ n s, root ≠ [(n, FsNode.dir s)]) → fallback_payload root = root) := by
  refine ⟨?_, ?_, ?_⟩
  · have hnf := (noMarker_notFound (sizeOf root) root [] le_rfl hm).1
    have hfresh : ∀ p ∈ fallback_payload root, lookupEntry ([] : Entries) p.1 = none := by
      intro p _
      rfl
    have hcopy := copy_items_fresh (fallback_payload root) [] hfresh hnd
    simp only [List.nil_append] at hcopy
    simp only [extract_zip, Bool.true_eq_false, if_false, hnf, fallback_copy,
      lookupEntry, hcopy, setEntry]
  · intro n s he
    rw [he]
    rfl
  · intro hne
    cases root with
    | nil => rfl
    | cons p tail =>
      obtain ⟨a, av⟩ := p
      cases tail with
      | nil =>
        cases av with
        | file c => rfl
        | zipf z => rfl
        | dir s => exact absurd rfl (hne a s)
      | cons q rest =>
        cases av with
        | file c => rfl
        | zipf z => rfl
        | dir s => rfl

/-- Witness for C8 at the archive of the specification example: top-level
entries `LICENSE`, `README.md`, `src/` and no `addons` anywhere. -/
theorem extract_zip_no_addons_fallback_witness :
    extract_zip true
      (some [("LICENSE", .file 1), ("README.md", .file 2),
             ("src", .dir [("main.gd", .file 3)])]) [] =
      (true, [("addons", .dir [("LICENSE", .file 1), ("README.md", .file 2),
              ("src", .dir [("main.gd", .file 3)])])]) ∧
    fallback_payload [("LICENSE", .file 1), ("README.md", .file 2),
      ("src", .dir [("main.gd", .file 3)])] =
      [("LICENSE", .file 1), ("README.md", .file 2),
       ("src", .dir [("main.gd", .file 3)])] := by
  have h := extract_zip_no_addons_fallback
    [("LICENSE", .file 1), ("README.md", .file 2),
     ("src", .dir [("main.gd", .file 3)])]
    (by simp [noAddonsMarker, isAddonsZipName, lowerName]) (by rfl)
  refine ⟨?_, ?_⟩
  · have h2 := h.2.2 (by intro n s he; simp at he)
    rw [h2] at h
    exact h.1
  · exact h.2.2 (by intro n s he; simp at he)

/-- C10: the archive extraction `extract_zip` (in the smart mode used by
the pipeline) is total — modelled as a total Lean function, mirroring the
outermost `except` handler of utils.py line 477 which converts every
exception into `False` — and its Boolean result does not distinguish the
failure kinds: it is `true` exactly when the archive path is a file, the
archive parses, and the copy into the destination completed (either via a
found `addons` directory or via the no-marker fallback); every failure
(missing file, unreadable zip, copy error) yields `false`. -/
theorem extract_zip_result_characterization (zipIsFile : Bool)
    (archive : Option Entries) (dest : Entries) :
    (extract_zip zipIsFile archive dest).1 = true ↔
      (zipIsFile = true ∧ ∃ root, archive = some root ∧
        ((∃ d, find_and_process_addons root dest = .found d) ∨
         (find_and_process_addons root dest = .notFound ∧
          ∃ d, fallback_copy root dest = some d))) := by
  cases zipIsFile with
  | false => simp [extract_zip]
  | true =>
    cases archive with
    | none => simp [extract_zip]
    | some root =>
      simp only [extract_zip, Bool.true_eq_false, if_false]
      cases hf : find_and_process_addons root dest with
      | err => simp [hf]
      | found d => simp [hf]
      | notFound =>
        cases hb : fallback_copy root dest with
        | none => simp [hf, hb]
        | some d => simp [hf, hb]

/-- The error messages a `DownloadThread` can report through its `finished`
signal (utils.py lines 208-219); the payload of `network`/`unexpected`
abstracts the embedded exception text. -/
inductive DlError where
  | timeout
  | network (e : Nat)
  | canceledByUser
  | completedButInterrupted
  | unexpected (e : Nat)

/-- Environment of one `DownloadThread.run` execution (utils.py lines
168-226): outcome of the parent-directory mkdir (line 174), of the HTTP
request (lines 176-177; `none` means the request and status check
succeeded), the declared content length (line 180; `0` means unknown), the
sizes of the streamed chunks in order (line 187; a `0` models a falsy
empty chunk, which is neither written nor counted), the point at which
`stop()` is observed (`some k`: the `_is_running` check before iteration
`k` and all later checks see False; `none`: never stopped), and whether
the cleanup `unlink` of line 231 succeeds. -/
structure DlEnv where
  mkdirErr : Option Nat
  connErr : Option DlError
  totalSize : Nat
  chunks : List Nat
  stopAfter : Option Nat
  unlinkOk : Bool

/-- The cooperative stop flag as seen by the check before chunk iteration
`j` (utils.py line 188). -/
def stopRequested (stopAfter : Option Nat) (j : Nat) : Bool :=
  match stopAfter with
  | none => false
  | some k => k ≤ j

/-- Terminal state of one `DownloadThread.run` execution: the error
reported by the `finished` signal (`none` on success), whether the
destination file is on disk when `finished` is emitted (cleanup of
failed or cancelled downloads runs before the emit, utils.py lines
220-225), the values sent through the `progress` signal in order, and the
bytes written. -/
structure DlResult where
  error : Option DlError
  fileExists : Bool
  trace : List Int
  bytes : Nat

/-- The chunk loop of `DownloadThread.run` (utils.py lines 186-197):
before each chunk the stop flag is checked (raising `InterruptedError`
with "Download canceled by user."); a non-empty chunk is written, counted,
and `progress` is emitted — `int(100 * bytes / total)` when the total is
known, `-1` otherwise. -/
def dl_loop (total : Nat) (stopAfter : Option Nat) :
    List Nat → Nat → Nat → Option DlError × Nat × List Int
  | [], j, b =>
    if stopRequested stopAfter j then (some .completedButInterrupted, b, [])
    else (none, b, [])
  | c :: rest, j, b =>
    if stopRequested stopAfter j then (some .canceledByUser, b, [])
    else if c = 0 then dl_loop total stopAfter rest (j + 1) b
    else
      let b2 := b + c
      let p : Int := if 0 < total then ((100 * b2) / total : Nat) else -1
      let r := dl_loop total stopAfter rest (j + 1) b2
      (r.1, r.2.1, p :: r.2.2)

/-- Model of `DownloadThread.run` (utils.py lines 168-226).  On success the
final `progress.emit(100)` of line 202 is appended and the file remains;
on any error or cancellation `_cleanup_failed_download` removes the
partial file (if its `unlink` succeeds) before `finished` is emitted. -/
def DownloadThread_run (env : DlEnv) : DlResult :=
  match env.mkdirErr with
  | some e => { error := some (.unexpected e), fileExists := false, trace := [], bytes := 0 }
  | none =>
    match env.connErr with
    | some e => { error := some e, fileExists := false, trace := [], bytes := 0 }
    | none =>
      let r := dl_loop env.totalSize env.stopAfter env.chunks 0 0
      match r.1 with
      | none => { error := none, fileExists := true, trace := r.2.2 ++ [100], bytes := r.2.1 }
      | some err =>
          { error := some err, fileExists := !env.unlinkOk, trace := r.2.2, bytes := r.2.1 }

/-- The exceptions that `ExtensionInstaller.run` can raise inside its `try`
block (project_handler.py lines 527-607), with the data their messages
carry. -/
inductive Exc where
  | valueDetailsNotFound (id : Nat)
  | valueNoUrl (id : Nat)
  | ioTempDir
  | connDownloadFailed (e : DlError)
  | intrCancelledAfterFetch
  | intrDuringWait (e : Option DlError)
  | intrAfterExtract

/-- The terminal message of an `ExtensionInstaller` `finished` signal:
"Cancelled before start.", f"Installation failed: {e}",
f"Installation cancelled: {e}", the generic
f"Unexpected error installing asset ID {id}: {e}" branch of line 618
(unreachable for the effects modelled here, since `fetch_asset_details_sync`
and `extract_zip` catch their own exceptions), or the success message
naming the asset. -/
inductive Msg where
  | cancelledBeforeStart
  | installationFailed (e : Exc)
  | installationCancelled (e : Exc)
  | unexpectedError (id : Nat) (e : Nat)
  | installedSuccessfully (id : Nat)

/-- The `except` cascade of project_handler.py lines 609-621: an
`InterruptedError` produces the "Installation cancelled:" message, the
known error types produce "Installation failed:". -/
def excToMsg (e : Exc) : Msg :=
  match e with
  | .intrCancelledAfterFetch => .installationCancelled e
  | .intrDuringWait f => .installationCancelled (.intrDuringWait f)
  | .intrAfterExtract => .installationCancelled e
  | f => .installationFailed f

/-- The result of `fetch_asset_details_sync` (api_clients.py lines
111-135): it catches all its own exceptions and returns a record or None;
`download_url`/`title` model `.get("download_url")`/`.get("title")`. -/
structure AssetDetails where
  download_url : Option Nat
  title : Option Nat

/-- Environment of one `ExtensionInstaller.run` execution
(project_handler.py lines 511-641): the stop-flag value at each of its
check points (lines 514, 534, 578, 601), the outcome of the `addons`
mkdir at line 521 (which runs before the `try` block), the fetched
details, the outcome of the temp-directory mkdir at line 549, the
download environment, the parsed downloaded archive (`none` = corrupt)
together with the project `addons` listing for extraction, and whether
the cleanup `unlink` of line 628 succeeds. -/
structure JobEnv where
  runningAtStart : Bool
  mkdirAddonsOk : Bool
  details : Option AssetDetails
  runningAfterFetch : Bool
  mkTempOk : Bool
  dl : DlEnv
  runningAfterWait : Bool
  archive : Option Entries
  addons : Entries
  runningAfterExtract : Bool
  unlinkOk : Bool

/-- The `JobResult` carried by the `finished` signal of an
`ExtensionInstaller`: `finished.emit(asset_id, success, final_msg)`
(project_handler.py line 641). -/
structure JobResult where
  success : Bool
  message : Msg

/-- Observable outcome of one `ExtensionInstaller.run` execution: the
emitted terminal signal (`none` when an exception escaped `run` and no
`finished` signal was ever emitted), whether the temporary zip remains on
disk afterwards, and the `progress` values emitted in order. -/
structure JobRun where
  emitted : Option JobResult
  tempExists : Bool
  trace : List Int

/-- The `try` block of `ExtensionInstaller.run` (project_handler.py lines
527-607), returning the raised exception (`none` = completed), whether the
downloaded zip exists when the block is left, and the emitted progress
values: 10 before the fetch (line 531), 20 after the url check (line 542),
the relayed download percentages scaled onto 20-80 by
`_handle_download_progress` (line 647: `20 + int(percent * 0.6)`,
indeterminate `-1` kept), 80 before extraction (line 590), 100 on success
(line 606).  The Boolean result of `extract_zip` at line 597 is discarded
by the source, so a failed extraction still falls through to the success
path. -/
def scale_progress (tr : List Int) : List Int :=
  tr.map (fun p => if 0 ≤ p then ((20 + (3 * p.toNat) / 5 : Nat) : Int) else -1)

/-- The tail of the `try` block after a successful download
(project_handler.py lines 588-607): `extract_zip` is invoked but its
Boolean result — the first argument here — is DISCARDED by the source
(line 597), so both extraction outcomes continue to the success path;
only the line-601 stop-flag check can still divert it. -/
def after_extract (extractResult : Bool × Entries) (env : JobEnv)
    (dlr : DlResult) : Option Exc × Bool × List Int :=
  if env.runningAfterExtract = false then
    (some .intrAfterExtract, dlr.fileExists,
      [10, 20] ++ scale_progress dlr.trace ++ [80])
  else
    (none, dlr.fileExists, [10, 20] ++ scale_progress dlr.trace ++ [80, 100])

def installer_try (env : JobEnv) (asset_id : Nat) :
    Option Exc × Bool × List Int :=
  if env.runningAfterFetch = false then (some .intrCancelledAfterFetch, false, [10])
  else
    match env.details with
    | none => (some (.valueDetailsNotFound asset_id), false, [10])
    | some det =>
      match det.download_url with
      | none => (some (.valueNoUrl asset_id), false, [10])
      | some _ =>
        if env.mkTempOk = false then (some .ioTempDir, false, [10, 20])
        else if env.runningAfterWait = false then
          (some (.intrDuringWait (DownloadThread_run env.dl).error),
            (DownloadThread_run env.dl).fileExists,
            [10, 20] ++ scale_progress (DownloadThread_run env.dl).trace)
        else
          match (DownloadThread_run env.dl).error with
          | some e =>
            (some (.connDownloadFailed e),
              (DownloadThread_run env.dl).fileExists,
              [10, 20] ++ scale_progress (DownloadThread_run env.dl).trace)
          | none =>
            after_extract (extract_zip true env.archive env.addons) env
              (DownloadThread_run env.dl)

/-- Model of `ExtensionInstaller.run` (project_handler.py lines 511-641).
If the stop flag is already clear the early return of line 517 emits a
cancelled result; the `addons_dir.mkdir` of line 521 runs before the
`try`, so its exception propagates out of `run` and no `finished` signal
is ever emitted; otherwise the `try` body runs, the `finally` block
removes the temporary zip if it exists (line 628), and `finished` is
emitted with success iff no exception was raised. -/
def ExtensionInstaller_run (env : JobEnv) (asset_id : Nat) : JobRun :=
  if env.runningAtStart = false then
    { emitted := some { success := false, message := .cancelledBeforeStart },
      tempExists := false, trace := [] }
  else if env.mkdirAddonsOk = false then
    { emitted := none, tempExists := false, trace := [] }
  else
    let r := installer_try env asset_id
    let tempAfter := r.2.1 && !env.unlinkOk
    match r.1 with
    | none =>
      { emitted := some { success := true, message := .installedSuccessfully asset_id },
        tempExists := tempAfter, trace := r.2.2 }
    | some e =>
      { emitted := some { success := false, message := excToMsg e },
        tempExists := tempAfter, trace := r.2.2 }

/-- A download environment in which everything succeeds: connection OK,
content length 100, two chunks of 60 and 40 bytes, never stopped. -/
def dlOkEnv : DlEnv :=
  { mkdirErr := none, connErr := none, totalSize := 100,
    chunks := [60, 40], stopAfter := none, unlinkOk := true }

/-- A job environment in which metadata fetch and download succeed but the
downloaded file is not a readable zip archive (`archive = none`), so
extraction fails; all stop-flag checks see the thread running. -/
def corruptArchiveEnv : JobEnv :=
  { runningAtStart := true, mkdirAddonsOk := true,
    details := some { download_url := some 1, title := some 1 },
    runningAfterFetch := true, mkTempOk := true, dl := dlOkEnv,
    runningAfterWait := true, archive := none, addons := [],
    runningAfterExtract := true, unlinkOk := true }

/-- C1 (code bug): when the downloaded archive cannot be extracted
(`extract_zip` returns False, here because the archive is corrupt), the
claim and spec say the job's terminal `JobResult` reports failure — but
`ExtensionInstaller.run` discards the Boolean result of `extract_zip`
(project_handler.py line 597), so the job emits `success = True` with the
"installed successfully" message.  The temp file is still cleaned up.
This theorem evaluates the model at the failing input. -/
theorem installer_corrupt_archive_reports_success :
    (extract_zip true none []).1 = false ∧
    (ExtensionInstaller_run corruptArchiveEnv 42).emitted =
      some { success := true, message := .installedSuccessfully 42 } ∧
    (ExtensionInstaller_run corruptArchiveEnv 42).tempExists = false :=
  ⟨rfl, rfl, rfl⟩

/-- A job environment identical to a fully successful one except that the
`addons_dir.mkdir(exist_ok=True)` of project_handler.py line 521 raises
(for example because the project directory does not exist). -/
def mkdirFailEnv : JobEnv :=
  { runningAtStart := true, mkdirAddonsOk := false,
    details := some { download_url := some 1, title := some 1 },
    runningAfterFetch := true, mkTempOk := true, dl := dlOkEnv,
    runningAfterWait := true,
    archive := some [("addons", .dir [("A", .dir [("p.cfg", .file 1)])])],
    addons := [], runningAfterExtract := true, unlinkOk := true }

/-- C2 (code bug): the claim and spec say every error at any step —
including filesystem errors while preparing the project's `addons`
directory — is caught inside the job and converted into a failure
`JobResult`.  But `addons_dir.mkdir(exist_ok=True)` runs at
project_handler.py line 521, before the `try` of line 527, so its
exception propagates out of `run` and no terminal `finished` signal is
emitted on that path (the model's `emitted = none`), contradicting the
comment at line 640 ("Emit finished signal in all cases"). -/
theorem installer_mkdir_failure_emits_no_result :
    ExtensionInstaller_run mkdirFailEnv 7 =
      { emitted := none, tempExists := false, trace := [] } :=
  rfl

/-- Modelled from `ExtensionInstaller.__init__` (project_handler.py lines
492-500): the temporary download path is
`tempfile.gettempdir()/godot_launcher_temp/godot_extensions/asset_{id}.zip`
(returned here as its components below the system temp directory).  The
constructor consults no clock and no random source; the `ctorTime`
argument — the wall-clock time at which the job object is constructed —
is accepted only so that the uniqueness claim can be stated, and does not
influence the result. -/
def zip_save_path (asset_id : Nat) (ctorTime : Nat) : List String :=
  ["godot_launcher_temp", "godot_extensions",
   "asset_" ++ toString asset_id ++ ".zip"]

/-- C3 counterexample: two jobs for the same asset id constructed at
different times (here times 0 and 1) receive the SAME temporary path, not
distinct ones as the claim states. -/
theorem zip_save_path_same_asset_collides :
    zip_save_path 1 0 = zip_save_path 1 1 :=
  rfl

/-- C3 amended: the temporary download path includes the asset id but no
time-based or random suffix — it is a function of the asset id alone,
namely `godot_launcher_temp/godot_extensions/asset_{id}.zip` under the
system temp directory, so any two jobs for the same asset id use the same
path regardless of construction time. -/
theorem zip_save_path_function_of_asset_id (asset_id t1 t2 : Nat) :
    zip_save_path asset_id t1 = zip_save_path asset_id t2 ∧
    zip_save_path asset_id t1 =
      ["godot_launcher_temp", "godot_extensions",
       "asset_" ++ toString asset_id ++ ".zip"] :=
  ⟨rfl, rfl⟩

/-- C6: for every terminal outcome of a job that emits a terminal
`JobResult` (success, metadata not found, missing URL, download failure,
extraction failure, cancellation), no temporary downloaded archive file of
that job remains on disk at the moment the `finished` signal is emitted —
provided the filesystem deletions themselves succeed (the `unlink` calls
of utils.py line 231 and project_handler.py line 628). -/
theorem installer_no_temp_after_result (env : JobEnv) (asset_id : Nat)
    (r : JobResult) (hu : env.unlinkOk = true)
    (hdu : env.dl.unlinkOk = true)
    (he : (ExtensionInstaller_run env asset_id).emitted = some r) :
    (ExtensionInstaller_run env asset_id).tempExists = false := by
  unfold ExtensionInstaller_run
  split
  · rfl
  split
  · rfl
  simp only [hu, Bool.not_true, Bool.and_false]
  cases hr : (installer_try env asset_id).1 <;> simp [hr]

/-- Witness for C6: a concrete job run that emits a terminal result leaves
no temp file at the moment the result is emitted. -/
theorem installer_no_temp_after_result_witness :
    (ExtensionInstaller_run corruptArchiveEnv 42).tempExists = false :=
  installer_no_temp_after_result corruptArchiveEnv 42
    { success := true, message := .installedSuccessfully 42 } rfl rfl rfl

/-- The final message delivered to `finished_callback` by
`run_next_installer` (project_handler.py lines 713-716) or by the empty
input early return (line 684). -/
inductive FinalMsg where
  | noExtensionsSelected
  | cancelled
  | complete
  | withErrors (id : Nat) (m : Msg)

/-- The progress-bar update of `handle_progress_update`
(project_handler.py line 752): `int(100 * (installed_count +
percent / 100.0) / total)`, evaluated in exact arithmetic. -/
def overall_progress (count p total : Nat) : Nat :=
  (100 * count + p) / total

/-- The observable behaviour of one `install_extensions_logic` run: the
asset ids for which an installer was started, in order; the `finished`
signals received by `handle_installer_finished`, in order; the final
success flag and message passed to `finished_callback`; and the
determinate values given to `progress_bar.setValue`, in order
(indeterminate `-1` updates put the bar in marquee mode and set no
value, line 756). -/
structure QueueRun where
  started : List Nat
  finishedTrace : List (Nat × Bool × Msg)
  finalSuccess : Bool
  finalMessage : FinalMsg
  barValues : List Nat

/-- The finalization branch of `run_next_installer` (project_handler.py
lines 711-725): overall success iff no error was recorded and no
cancellation was requested; message "Installation cancelled." /
"Installation complete." / "Installation finished with errors:
ID {id}: {message}". -/
def finalize_queue (firstErr : Option (Nat × Msg)) (cancelled : Bool) : QueueRun :=
  { started := [], finishedTrace := [],
    finalSuccess := firstErr.isNone && !cancelled,
    finalMessage :=
      if cancelled then .cancelled
      else match firstErr with
        | none => .complete
        | some (id, m) => .withErrors id m,
    barValues := [] }

/-- Model of the `run_next_installer` recursion (project_handler.py lines
707-781) together with its signal handlers (lines 742-776).  `outcomes i`
is the terminal `finished` signal of the `i`-th started installer
(success flag and message), `traces i` its emitted progress values, and
`cancelDuring = some i` means `cancel_installation_process` runs while
the `i`-th installer is running (the flag is then observed by
`handle_installer_finished`, which skips the bookkeeping and lets the
next `run_next_installer` call finalize; progress updates of that
installer delivered before the press are modelled as all relayed).
Arguments: remaining ids, index of the next installer to start, the
`installed_count`, the first recorded error, and the cancellation flag. -/
def run_next_installer (outcomes : Nat → Bool × Msg) (traces : Nat → List Int)
    (cancelDuring : Option Nat) (total : Nat) :
    List Nat → Nat → Nat → Option (Nat × Msg) → Bool → QueueRun
  | ids, i, count, firstErr, cancelled =>
    match ids, cancelled with
    | _, true => finalize_queue firstErr true
    | [], false => finalize_queue firstErr false
    | id :: rest, false =>
      let base := overall_progress count 0 total
      let jobBar := (traces i).filterMap
        (fun p => if 0 ≤ p then some (overall_progress count p.toNat total) else none)
      if cancelDuring == some i then
        let r := run_next_installer outcomes traces cancelDuring total rest (i + 1)
          count firstErr true
        { started := id :: r.started,
          finishedTrace := (id, (outcomes i).1, (outcomes i).2) :: r.finishedTrace,
          finalSuccess := r.finalSuccess, finalMessage := r.finalMessage,
          barValues := (base :: jobBar) ++ r.barValues }
      else
        let firstErr2 :=
          match firstErr with
          | some e => some e
          | none =>
            if (outcomes i).1 = false then some (id, (outcomes i).2) else none
        let r := run_next_installer outcomes traces cancelDuring total rest (i + 1)
          (count + 1) firstErr2 false
        { started := id :: r.started,
          finishedTrace := (id, (outcomes i).1, (outcomes i).2) :: r.finishedTrace,
          finalSuccess := r.finalSuccess, finalMessage := r.finalMessage,
          barValues := (base :: jobBar) ++ r.barValues }

/-- Model of `install_extensions_logic` (project_handler.py lines
651-799): an empty id list returns immediately with success and the
"No extensions selected." message (lines 680-685); otherwise the progress
bar is set to 0 (line 698) and the `run_next_installer` loop is started
over a copy of the list with `installed_count = 0` and no recorded
error. -/
def install_extensions_logic (asset_ids : List Nat)
    (outcomes : Nat → Bool × Msg) (traces : Nat → List Int)
    (cancelDuring : Option Nat) : QueueRun :=
  match asset_ids with
  | [] =>
    { started := [], finishedTrace := [], finalSuccess := true,
      finalMessage := .noExtensionsSelected, barValues := [] }
  | _ =>
    let r := run_next_installer outcomes traces cancelDuring asset_ids.length
      asset_ids 0 0 none false
    { r with barValues := 0 :: r.barValues }

/-- The first error recorded by the `handle_installer_finished` handlers
across a queue run: fold of `if not success and first_error_msg is None`
(project_handler.py lines 767-769) over the ids, starting at installer
index `i` with accumulator `acc`. -/
def queue_first_err (outcomes : Nat → Bool × Msg) :
    List Nat → Nat → Option (Nat × Msg) → Option (Nat × Msg)
  | [], _, acc => acc
  | id :: rest, i, acc =>
    queue_first_err outcomes rest (i + 1)
      (match acc with
       | some e => some e
       | none => if (outcomes i).1 = false then some (id, (outcomes i).2) else none)

theorem queue_first_err_some (outcomes : Nat → Bool × Msg) :
    ∀ (ids : List Nat) (i : Nat) (e : Nat × Msg),
      queue_first_err outcomes ids i (some e) = some e := by
  intro ids
  induction ids with
  | nil => intro i e; rfl
  | cons id rest ih => intro i e; simp only [queue_first_err]; exact ih (i + 1) e

theorem run_next_none_spec (outcomes : Nat → Bool × Msg)
    (traces : Nat → List Int) (total : Nat) :
    ∀ (ids : List Nat) (i count : Nat) (firstErr : Option (Nat × Msg)),
      (run_next_installer outcomes traces none total ids i count firstErr false).started
        = ids ∧
      (run_next_installer outcomes traces none total ids i count firstErr false).finishedTrace
        = (ids.enumFrom i).map (fun p => (p.2, (outcomes p.1).1, (outcomes p.1).2)) ∧
      (run_next_installer outcomes traces none total ids i count firstErr false).finalSuccess
        = (queue_first_err outcomes ids i firstErr).isNone ∧
      (run_next_installer outcomes traces none total ids i count firstErr false).finalMessage
        = (match queue_first_err outcomes ids i firstErr with
           | none => FinalMsg.complete
           | some (id, m) => FinalMsg.withErrors id m) := by
  intro ids
  induction ids with
  | nil =>
    intro i count firstErr
    refine ⟨rfl, rfl, by simp [run_next_installer, finalize_queue, queue_first_err], ?_⟩
    simp only [run_next_installer, finalize_queue, queue_first_err]
    cases firstErr with
    | none => rfl
    | some e => obtain ⟨eid, em⟩ := e; rfl
  | cons id rest ih =>
    intro i count firstErr
    have hbeq : ((none : Option Nat) == some i) = false := rfl
    simp only [run_next_installer, hbeq, Bool.false_eq_true, if_false]
    have ih2 := ih (i + 1) (count + 1)
      (match firstErr with
       | some e => some e
       | none => if (outcomes i).1 = false then some (id, (outcomes i).2) else none)
    refine ⟨by simp [ih2.1], ?_, by simp [ih2.2.2.1, queue_first_err], ?_⟩
    · simp only [List.enumFrom, List.map]
      exact congrArg _ ih2.2.1
    · simp only [queue_first_err]
      exact ih2.2.2.2

theorem run_next_cancel_spec (outcomes : Nat → Bool × Msg)
    (traces : Nat → List Int) (total k : Nat) :
    ∀ (ids : List Nat) (i count : Nat) (firstErr : Option (Nat × Msg)),
      i ≤ k → k < i + ids.length →
      (run_next_installer outcomes traces (some k) total ids i count firstErr false).finalSuccess
        = false ∧
      (run_next_installer outcomes traces (some k) total ids i count firstErr false).finalMessage
        = .cancelled ∧
      (run_next_installer outcomes traces (some k) total ids i count firstErr false).started
        = ids.take (k + 1 - i) := by
  intro ids
  induction ids with
  | nil =>
    intro i count firstErr h1 h2
    simp at h2
    omega
  | cons id rest ih =>
    intro i count firstErr h1 h2
    by_cases hik : k = i
    · have hbeq : ((some k : Option Nat) == some i) = true := by
        simp [hik]
      simp only [run_next_installer, hbeq, if_true, finalize_queue]
      subst hik
      refine ⟨by simp, by simp, ?_⟩
      have : k + 1 - k = 1 := by omega
      simp [this]
    · have hbeq : ((some k : Option Nat) == some i) = false := by
        simp [hik]
      simp only [run_next_installer, hbeq, Bool.false_eq_true, if_false]
      have hik2 : i + 1 ≤ k := by omega
      have hlen : k < (i + 1) + rest.length := by
        simp at h2
        omega
      have ih2 := ih (i + 1) (count + 1)
        (match firstErr with
         | some e => some e
         | none => if (outcomes i).1 = false then some (id, (outcomes i).2) else none)
        hik2 hlen
      refine ⟨by simp [ih2.1], by simp [ih2.2.1], ?_⟩
      simp only [ih2.2.2]
      have h3 : k + 1 - i = (k + 1 - (i + 1)) + 1 := by omega
      rw [h3]
      rfl

theorem queue_first_err_none_iff (outcomes : Nat → Bool × Msg) :
    ∀ (ids : List Nat) (i : Nat),
      (queue_first_err outcomes ids i none).isNone = true ↔
        ∀ j, j < ids.length → (outcomes (i + j)).1 = true := by
  intro ids
  induction ids with
  | nil =>
    intro i
    simp [queue_first_err]
  | cons id rest ih =>
    intro i
    by_cases h : (outcomes i).1 = false
    · simp only [queue_first_err]
      rw [if_pos h, queue_first_err_some]
      simp only [Option.isNone_some, Bool.false_eq_true, false_iff]
      intro hall
      have := hall 0 (by simp)
      rw [Nat.add_zero] at this
      rw [this] at h
      exact absurd h (by simp)
    · have htrue : (outcomes i).1 = true := by
        cases hx : (outcomes i).1
        · exact absurd hx h
        · rfl
      simp only [queue_first_err]
      rw [if_neg h, ih (i + 1)]
      constructor
      · intro hall j hj
        cases j with
        | zero => rw [Nat.add_zero]; exact htrue
        | succ j2 =>
          have hj2r : j2 < rest.length := by
            simp only [List.length_cons] at hj
            omega
          have h2 := hall j2 hj2r
          have he2 : i + 1 + j2 = i + (j2 + 1) := by omega
          rw [he2] at h2
          exact h2
      · intro hall j hj
        have hjr : j + 1 < (id :: rest).length := by
          simp only [List.length_cons]
          omega
        have h2 := hall (j + 1) hjr
        have he2 : i + (j + 1) = i + 1 + j := by omega
        rw [he2] at h2
        exact h2

theorem queue_first_err_first (outcomes : Nat → Bool × Msg) :
    ∀ (ids : List Nat) (j i : Nat), j < ids.length →
      (∀ l, l < j → (outcomes (i + l)).1 = true) →
      (outcomes (i + j)).1 = false →
      queue_first_err outcomes ids i none =
        some (ids.getD j 0, (outcomes (i + j)).2) := by
  intro ids
  induction ids with
  | nil =>
    intro j i hj _ _
    simp at hj
  | cons id rest ih =>
    intro j i hj hpre hj2
    cases j with
    | zero =>
      rw [Nat.add_zero] at hj2
      simp only [queue_first_err]
      rw [if_pos hj2, queue_first_err_some]
      simp
    | succ j2 =>
      have h0 : (outcomes i).1 = true := by
        have := hpre 0 (by omega)
        rw [Nat.add_zero] at this
        exact this
      have hne : ¬((outcomes i).1 = false) := by simp [h0]
      simp only [queue_first_err]
      rw [if_neg hne]
      have heq : i + (j2 + 1) = (i + 1) + j2 := by omega
      rw [heq] at hj2
      have hrec := ih j2 (i + 1) (by simp at hj; omega)
        (fun l hl => by
          have := hpre (l + 1) (by omega)
          rw [show i + (l + 1) = (i + 1) + l by omega] at this
          exact this)
        hj2
      rw [hrec, heq]
      simp

/-- C5: `JobResults` are produced in exactly the order the asset ids were
supplied; after a per-asset failure the queue still runs every remaining
asset; the final summary reports overall success iff no job failed and no
cancellation was requested, carries only the first encountered error
message when some job failed, and a cancellation observed during any job
makes the final summary non-successful. -/
theorem queue_order_first_error_success (ids : List Nat)
    (outcomes : Nat → Bool × Msg) (traces : Nat → List Int) (k : Nat)
    (hk : k < ids.length) :
    (install_extensions_logic ids outcomes traces none).started = ids ∧
    (install_extensions_logic ids outcomes traces none).finishedTrace
      = ids.enum.map (fun p => (p.2, (outcomes p.1).1, (outcomes p.1).2)) ∧
    ((install_extensions_logic ids outcomes traces none).finalSuccess = true ↔
      ∀ j, j < ids.length → (outcomes j).1 = true) ∧
    ((∀ j, j < ids.length → (outcomes j).1 = true) →
      (install_extensions_logic ids outcomes traces none).finalMessage
        = .complete) ∧
    (∀ j, j < ids.length → (∀ l, l < j → (outcomes l).1 = true) →
      (outcomes j).1 = false →
      (install_extensions_logic ids outcomes traces none).finalMessage
        = .withErrors (ids.getD j 0) (outcomes j).2) ∧
    (install_extensions_logic ids outcomes traces (some k)).finalSuccess
      = false := by
  cases ids with
  | nil => exact absurd hk (by simp)
  | cons id rest =>
    have hs := run_next_none_spec outcomes traces (id :: rest).length
      (id :: rest) 0 0 none
    have hc := run_next_cancel_spec outcomes traces (id :: rest).length k
      (id :: rest) 0 0 none (Nat.zero_le k) (by simpa using hk)
    have hiff := queue_first_err_none_iff outcomes (id :: rest) 0
    simp only [Nat.zero_add] at hiff
    refine ⟨hs.1, ?_, ?_, ?_, ?_, hc.1⟩
    · rw [show (install_extensions_logic (id :: rest) outcomes traces
          none).finishedTrace = (run_next_installer outcomes traces none
          (id :: rest).length (id :: rest) 0 0 none false).finishedTrace from rfl]
      rw [hs.2.1]
      rfl
    · rw [show (install_extensions_logic (id :: rest) outcomes traces
          none).finalSuccess = (run_next_installer outcomes traces none
          (id :: rest).length (id :: rest) 0 0 none false).finalSuccess from rfl]
      rw [hs.2.2.1]
      exact hiff
    · intro hall
      have hnone : queue_first_err outcomes (id :: rest) 0 none = none := by
        have := hiff.mpr hall
        exact Option.isNone_iff_eq_none.mp this
      rw [show (install_extensions_logic (id :: rest) outcomes traces
          none).finalMessage = (run_next_installer outcomes traces none
          (id :: rest).length (id :: rest) 0 0 none false).finalMessage from rfl]
      rw [hs.2.2.2, hnone]
    · intro j hj hpre hfail
      have hfirst := queue_first_err_first outcomes (id :: rest) j 0 hj
        (fun l hl => by simpa using hpre l hl) (by simpa using hfail)
      simp only [Nat.zero_add] at hfirst
      rw [show (install_extensions_logic (id :: rest) outcomes traces
          none).finalMessage = (run_next_installer outcomes traces none
          (id :: rest).length (id :: rest) 0 0 none false).finalMessage from rfl]
      rw [hs.2.2.2, hfirst]

/-- Witness for C5: a three-asset queue in which the second asset fails:
all three installers run in order and the summary carries the failure of
the second asset. -/
theorem queue_order_first_error_success_witness :
    (0 : Nat) < [10, 20, 30].length ∧
    (install_extensions_logic [10, 20, 30]
      (fun i => (decide (i ≠ 1), Msg.cancelledBeforeStart))
      (fun _ => []) none).started = [10, 20, 30] ∧
    (install_extensions_logic [10, 20, 30]
      (fun i => (decide (i ≠ 1), Msg.cancelledBeforeStart))
      (fun _ => []) none).finalMessage
      = .withErrors 20 Msg.cancelledBeforeStart := by
  have h := queue_order_first_error_success [10, 20, 30]
    (fun i => (decide (i ≠ 1), Msg.cancelledBeforeStart)) (fun _ => []) 0
    (by decide)
  refine ⟨by decide, h.1, ?_⟩
  have h5 := h.2.2.2.2.1 1 (by decide) (fun l hl => by
    interval_cases l
    decide) (by decide)
  simpa using h5

theorem dl_loop_stopped (total k : Nat) :
    ∀ (chunks : List Nat) (j b : Nat), j ≤ k → k - j < chunks.length →
      (dl_loop total (some k) chunks j b).1 = some .canceledByUser ∧
      (dl_loop total (some k) chunks j b).2.1 = b + (chunks.take (k - j)).sum := by
  intro chunks
  induction chunks with
  | nil =>
    intro j b _ h2
    simp at h2
  | cons c rest ih =>
    intro j b h1 h2
    by_cases hj : k ≤ j
    · have hkj : k = j := Nat.le_antisymm hj h1
      have hstop : stopRequested (some k) j = true := by
        simp [stopRequested, hj]
      simp only [dl_loop, hstop, if_true]
      subst hkj
      simp
    · have hstop : stopRequested (some k) j = false := by
        simp [stopRequested]
        omega
      have hj1 : j + 1 ≤ k := by omega
      have htake : k - j = (k - (j + 1)) + 1 := by omega
      by_cases hc : c = 0
      · have h2b : k - (j + 1) < rest.length := by
          simp only [List.length_cons] at h2
          omega
        have ihr := ih (j + 1) b hj1 h2b
        subst hc
        simp only [dl_loop, hstop, Bool.false_eq_true, if_false,
          eq_self_iff_true, if_true]
        refine ⟨ihr.1, ?_⟩
        rw [ihr.2, htake]
        simp
      · have h2b : k - (j + 1) < rest.length := by
          simp only [List.length_cons] at h2
          omega
        have ihr := ih (j + 1) (b + c) hj1 h2b
        simp only [dl_loop, hstop, Bool.false_eq_true, if_false,
          if_neg hc]
        refine ⟨ihr.1, ?_⟩
        rw [ihr.2, htake]
        simp
        omega

/-- C4: if `cancel()` is invoked while the current asset's transfer has
downloaded partial bytes (the stop flag is observed before chunk `k`,
with bytes already written and chunks remaining), then: the partially
downloaded temp file is deleted by the download thread before the
cancelled outcome is reported; the current job's terminal `JobResult`
reports a non-success (cancelled) outcome; the queue starts no subsequent
asset; and the final summary reports cancellation (non-success with the
"Installation cancelled." message). -/
theorem queue_cancel_mid_transfer (a b : Nat) (env : JobEnv)
    (det : AssetDetails) (u k : Nat)
    (h1 : env.runningAtStart = true)
    (h2 : env.mkdirAddonsOk = true)
    (h3 : env.details = some det)
    (h4 : det.download_url = some u)
    (h5 : env.runningAfterFetch = true)
    (h6 : env.mkTempOk = true)
    (h7 : env.dl.mkdirErr = none)
    (h8 : env.dl.connErr = none)
    (h9 : env.dl.stopAfter = some k)
    (h10 : k < env.dl.chunks.length)
    (h11 : 0 < (env.dl.chunks.take k).sum)
    (h12 : env.dl.unlinkOk = true)
    (h13 : env.runningAfterWait = false)
    (outcomes : Nat → Bool × Msg) (traces : Nat → List Int) :
    0 < (DownloadThread_run env.dl).bytes ∧
    (DownloadThread_run env.dl).fileExists = false ∧
    (DownloadThread_run env.dl).error = some .canceledByUser ∧
    (ExtensionInstaller_run env a).emitted =
      some { success := false,
             message := .installationCancelled
               (.intrDuringWait (some .canceledByUser)) } ∧
    (ExtensionInstaller_run env a).tempExists = false ∧
    (install_extensions_logic [a, b] outcomes traces (some 0)).started = [a] ∧
    (install_extensions_logic [a, b] outcomes traces (some 0)).finishedTrace
      = [(a, (outcomes 0).1, (outcomes 0).2)] ∧
    (install_extensions_logic [a, b] outcomes traces (some 0)).finalSuccess
      = false ∧
    (install_extensions_logic [a, b] outcomes traces (some 0)).finalMessage
      = .cancelled := by
  have hloop := dl_loop_stopped env.dl.totalSize k env.dl.chunks 0 0
    (Nat.zero_le k) (by simpa using h10)
  have hrun : DownloadThread_run env.dl =
      { error := some .canceledByUser, fileExists := !env.dl.unlinkOk,
        trace := (dl_loop env.dl.totalSize (some k) env.dl.chunks 0 0).2.2,
        bytes := (dl_loop env.dl.totalSize (some k) env.dl.chunks 0 0).2.1 } := by
    simp only [DownloadThread_run, h7, h8, h9]
    rw [show (dl_loop env.dl.totalSize (some k) env.dl.chunks 0 0).1
        = some DlError.canceledByUser from hloop.1]
  have hbytes : 0 < (DownloadThread_run env.dl).bytes := by
    rw [hrun]
    simp only
    rw [hloop.2]
    simpa using h11
  have hfe : (DownloadThread_run env.dl).fileExists = false := by
    rw [hrun, h12]
    rfl
  have herr : (DownloadThread_run env.dl).error = some .canceledByUser := by
    rw [hrun]
  have htry1 : (installer_try env a).1 =
      some (.intrDuringWait (some .canceledByUser)) := by
    simp only [installer_try, h5, h3, h4, h6, h13, herr, hfe,
      Bool.true_eq_false, if_false, if_true, eq_self_iff_true]
  have htry2 : (installer_try env a).2.1 = false := by
    simp only [installer_try, h5, h3, h4, h6, h13, herr, hfe,
      Bool.true_eq_false, if_false, if_true, eq_self_iff_true]
  have hinst1 : (ExtensionInstaller_run env a).emitted =
      some { success := false,
             message := .installationCancelled
               (.intrDuringWait (some .canceledByUser)) } := by
    simp only [ExtensionInstaller_run, h1, h2, Bool.true_eq_false,
      if_false, htry1, htry2, Bool.false_and]
    rfl
  have hinst2 : (ExtensionInstaller_run env a).tempExists = false := by
    simp only [ExtensionInstaller_run, h1, h2, Bool.true_eq_false,
      if_false, htry1, htry2, Bool.false_and]
  exact ⟨hbytes, hfe, herr, hinst1, hinst2, rfl, rfl, rfl, rfl⟩

/-- A download environment cancelled after one 30-byte chunk of a 100-byte
transfer: partial bytes are on disk when stop is observed. -/
def dlCancelEnv : DlEnv :=
  { mkdirErr := none, connErr := none, totalSize := 100,
    chunks := [30, 30, 40], stopAfter := some 1, unlinkOk := true }

/-- A job environment whose transfer is cancelled mid-download and whose
installer observes the stop flag after `wait()` returns. -/
def cancelMidEnv : JobEnv :=
  { runningAtStart := true, mkdirAddonsOk := true,
    details := some { download_url := some 5, title := some 5 },
    runningAfterFetch := true, mkTempOk := true, dl := dlCancelEnv,
    runningAfterWait := false, archive := none, addons := [],
    runningAfterExtract := true, unlinkOk := true }

/-- Witness for C4 at a concrete two-asset queue cancelled during the
first asset's download. -/
theorem queue_cancel_mid_transfer_witness :
    (install_extensions_logic [1, 2]
      (fun _ => (true, Msg.cancelledBeforeStart)) (fun _ => [])
      (some 0)).started = [1] ∧
    (install_extensions_logic [1, 2]
      (fun _ => (true, Msg.cancelledBeforeStart)) (fun _ => [])
      (some 0)).finalMessage = .cancelled ∧
    (DownloadThread_run cancelMidEnv.dl).fileExists = false :=
  ⟨(queue_cancel_mid_transfer 1 2 cancelMidEnv
      { download_url := some 5, title := some 5 } 5 1 rfl rfl rfl rfl rfl
      rfl rfl rfl rfl (by decide) (by decide) rfl rfl
      (fun _ => (true, Msg.cancelledBeforeStart)) (fun _ => [])).2.2.2.2.2.1,
   (queue_cancel_mid_transfer 1 2 cancelMidEnv
      { download_url := some 5, title := some 5 } 5 1 rfl rfl rfl rfl rfl
      rfl rfl rfl rfl (by decide) (by decide) rfl rfl
      (fun _ => (true, Msg.cancelledBeforeStart)) (fun _ => [])).2.2.2.2.2.2.2.2,
   (queue_cancel_mid_transfer 1 2 cancelMidEnv
      { download_url := some 5, title := some 5 } 5 1 rfl rfl rfl rfl rfl
      rfl rfl rfl rfl (by decide) (by decide) rfl rfl
      (fun _ => (true, Msg.cancelledBeforeStart)) (fun _ => [])).2.1⟩

/-- The determinate progress values of a signal trace: non-negative
percentages, with the indeterminate `-1` sentinel dropped (as
`handle_progress_update` drops it, project_handler.py lines 754-756). -/
def detVals (tr : List Int) : List Nat :=
  tr.filterMap (fun p => if 0 ≤ p then some p.toNat else none)

theorem detVals_append (a b2 : List Int) :
    detVals (a ++ b2) = detVals a ++ detVals b2 := by
  simp [detVals]

theorem filterMap_det_eq_map (f : Nat → Nat) (tr : List Int) :
    tr.filterMap (fun p => if 0 ≤ p then some (f p.toNat) else none)
      = (detVals tr).map f := by
  induction tr with
  | nil => rfl
  | cons p rest ih =>
    by_cases hp : (0 : Int) ≤ p
    · simp [detVals, List.filterMap_cons, hp] at ih ⊢
      exact ih
    · simp [detVals, List.filterMap_cons, hp] at ih ⊢
      exact ih

theorem detVals_scaled (tr : List Int) :
    detVals (tr.map
      (fun p => if 0 ≤ p then ((20 + (3 * p.toNat) / 5 : Nat) : Int) else -1))
      = (detVals tr).map (fun q => 20 + (3 * q) / 5) := by
  induction tr with
  | nil => rfl
  | cons p rest ih =>
    by_cases hp : (0 : Int) ≤ p
    · simp only [List.map_cons, hp, if_true, detVals, List.filterMap_cons] at ih ⊢
      exact congrArg _ ih
    · simp only [List.map_cons, hp, if_false, detVals, List.filterMap_cons] at ih ⊢
      exact ih

theorem dl_loop_trace_indet (stop : Option Nat) :
    ∀ (chunks : List Nat) (j b : Nat),
      detVals (dl_loop 0 stop chunks j b).2.2 = [] := by
  intro chunks
  induction chunks with
  | nil =>
    intro j b
    simp only [dl_loop]
    split <;> rfl
  | cons c rest ih =>
    intro j b
    simp only [dl_loop]
    split
    · rfl
    · split
      · exact ih (j + 1) b
      · simp only [detVals, List.filterMap_cons]
        rw [if_neg (by norm_num)]
        exact ih (j + 1) (b + c)

theorem dl_loop_trace_mb (total : Nat) (stop : Option Nat) (hpos : 0 < total) :
    ∀ (chunks : List Nat) (j b : Nat), b + chunks.sum ≤ total →
      List.Chain' (· ≤ ·) (detVals (dl_loop total stop chunks j b).2.2) ∧
      ∀ v ∈ detVals (dl_loop total stop chunks j b).2.2,
        100 * b / total ≤ v ∧ v ≤ 100 := by
  intro chunks
  induction chunks with
  | nil =>
    intro j b _
    constructor
    · simp only [dl_loop]
      split <;> simp [detVals]
    · intro v hv
      simp only [dl_loop] at hv
      split at hv <;> simp [detVals] at hv
  | cons c rest ih =>
    intro j b hsum
    simp only [List.sum_cons] at hsum
    by_cases hstop : stopRequested stop j = true
    · simp only [dl_loop, hstop, if_true]
      exact ⟨by simp [detVals], by intro v hv; simp [detVals] at hv⟩
    · have hstop2 : stopRequested stop j = false := by
        cases h : stopRequested stop j
        · rfl
        · exact absurd h hstop
      by_cases hc : c = 0
      · subst hc
        simp only [dl_loop, hstop2, Bool.false_eq_true, if_false,
          eq_self_iff_true, if_true]
        exact ih (j + 1) b (by omega)
      · have ihr := ih (j + 1) (b + c) (by omega)
        simp only [dl_loop, hstop2, Bool.false_eq_true, if_false, if_neg hc]
        have hq : ((if 0 < total then ((100 * (b + c) / total : Nat) : Int)
            else -1)) = ((100 * (b + c) / total : Nat) : Int) := by
          rw [if_pos hpos]
        constructor
        · simp only [detVals, List.filterMap_cons, hq]
          rw [if_pos (by positivity)]
          simp only [Int.toNat_natCast]
          rw [List.chain'_cons']
          refine ⟨?_, ihr.1⟩
          intro y hy
          exact (ihr.2 y (List.mem_of_mem_head? hy)).1
        · intro v hv
          simp only [detVals, List.filterMap_cons, hq] at hv
          rw [if_pos (by positivity)] at hv
          simp only [Int.toNat_natCast, List.mem_cons] at hv
          rcases hv with hv | hv
          · subst hv
            constructor
            · exact Nat.div_le_div_right (by omega)
            · calc 100 * (b + c) / total ≤ 100 * total / total :=
                    Nat.div_le_div_right (by omega)
                _ = 100 := Nat.mul_div_cancel 100 hpos
          · have := ihr.2 v hv
            constructor
            · calc 100 * b / total ≤ 100 * (b + c) / total :=
                    Nat.div_le_div_right (by omega)
                _ ≤ v := this.1
            · exact this.2

theorem dl_run_trace_mb (env : DlEnv)
    (honest : env.totalSize = 0 ∨ env.chunks.sum ≤ env.totalSize) :
    List.Chain' (· ≤ ·) (detVals (DownloadThread_run env).trace) ∧
    ∀ v ∈ detVals (DownloadThread_run env).trace, v ≤ 100 := by
  have hmb : List.Chain' (· ≤ ·)
      (detVals (dl_loop env.totalSize env.stopAfter env.chunks 0 0).2.2) ∧
      ∀ v ∈ detVals (dl_loop env.totalSize env.stopAfter env.chunks 0 0).2.2,
        v ≤ 100 := by
    by_cases hpos : 0 < env.totalSize
    · rcases honest with h0 | hs
      · omega
      · have := dl_loop_trace_mb env.totalSize env.stopAfter hpos
          env.chunks 0 0 (by omega)
        exact ⟨this.1, fun v hv => (this.2 v hv).2⟩
    · have h0 : env.totalSize = 0 := by omega
      rw [h0, dl_loop_trace_indet]
      exact ⟨by simp, by simp⟩
  unfold DownloadThread_run
  rcases hm : env.mkdirErr with _ | e
  · rcases hc : env.connErr with _ | e
    · simp only
      rcases hl : (dl_loop env.totalSize env.stopAfter env.chunks 0 0).1
        with _ | err
      · simp only [detVals_append]
        constructor
        · rw [List.chain'_append]
          refine ⟨hmb.1, by simp [detVals], ?_⟩
          intro x hx y hy
          have hx2 := List.mem_of_mem_getLast? hx
          have hy2 : y = 100 := by
            simp [detVals] at hy
            omega
          rw [hy2]
          exact hmb.2 x hx2
        · intro v hv
          rw [List.mem_append] at hv
          rcases hv with hv | hv
          · exact hmb.2 v hv
          · simp [detVals] at hv
            omega
      · exact hmb
    · exact ⟨by simp [detVals], by simp [detVals]⟩
  · exact ⟨by simp [detVals], by simp [detVals]⟩

theorem trace_mb_comp (sd : List Nat)
    (hch : List.Chain' (· ≤ ·) sd)
    (hlb : ∀ v ∈ sd, 20 ≤ v) (hub : ∀ v ∈ sd, v ≤ 80)
    (tail : List Nat)
    (htail : tail = [] ∨ tail = [80] ∨ tail = [80, 100]) :
    List.Chain' (· ≤ ·) (10 :: 20 :: (sd ++ tail)) ∧
    ∀ v ∈ 10 :: 20 :: (sd ++ tail), v ≤ 100 := by
  have htail_ch : List.Chain' (· ≤ ·) tail := by
    rcases htail with h | h | h <;> subst h
    · exact List.chain'_nil
    · exact List.chain'_singleton _
    · rw [List.chain'_cons]
      exact ⟨by norm_num, List.chain'_singleton _⟩
  have htail_head : ∀ y ∈ tail.head?, (20 : Nat) ≤ y ∧ (80 : Nat) ≤ y := by
    rcases htail with h | h | h <;> subst h <;> intro y hy <;>
      simp at hy <;> omega
  have htail_ub : ∀ v ∈ tail, v ≤ 100 := by
    rcases htail with h | h | h <;> subst h <;> intro v hv <;>
      simp at hv <;> omega
  constructor
  · rw [List.chain'_cons']
    constructor
    · intro y hy
      simp at hy
      omega
    rw [List.chain'_cons']
    constructor
    · intro y hy
      cases sd with
      | nil =>
        simp only [List.nil_append] at hy
        exact (htail_head y hy).1
      | cons s0 srest =>
        simp only [List.cons_append, List.head?_cons, Option.mem_some_iff] at hy
        subst hy
        exact hlb s0 (List.mem_cons_self _ _)
    rw [List.chain'_append]
    refine ⟨hch, htail_ch, ?_⟩
    intro x hx y hy
    have hx2 := List.mem_of_mem_getLast? hx
    have := hub x hx2
    have := (htail_head y hy).2
    omega
  · intro v hv
    simp only [List.mem_cons, List.mem_append] at hv
    rcases hv with h | h | h | h
    · omega
    · omega
    · have := hub v h
      omega
    · exact htail_ub v h

theorem det_comp (scaledL tailL : List Int)
    (hch : List.Chain' (· ≤ ·) (detVals scaledL))
    (hlb : ∀ v ∈ detVals scaledL, 20 ≤ v)
    (hub : ∀ v ∈ detVals scaledL, v ≤ 80)
    (htail : detVals tailL = [] ∨ detVals tailL = [80] ∨
      detVals tailL = [80, 100]) :
    List.Chain' (· ≤ ·) (detVals (([10, 20] : List Int) ++ scaledL ++ tailL)) ∧
    ∀ v ∈ detVals (([10, 20] : List Int) ++ scaledL ++ tailL), v ≤ 100 := by
  rw [List.append_assoc, detVals_append, detVals_append]
  have h1020 : detVals ([10, 20] : List Int) = [10, 20] := rfl
  rw [h1020]
  simp only [List.cons_append, List.nil_append]
  exact trace_mb_comp _ hch hlb hub _ htail

theorem installer_trace_mb (env : JobEnv) (id : Nat)
    (honest : env.dl.totalSize = 0 ∨ env.dl.chunks.sum ≤ env.dl.totalSize) :
    List.Chain' (· ≤ ·) (detVals (ExtensionInstaller_run env id).trace) ∧
    ∀ v ∈ detVals (ExtensionInstaller_run env id).trace, v ≤ 100 := by
  have hdl := dl_run_trace_mb env.dl honest
  have hscaled :
      detVals (scale_progress (DownloadThread_run env.dl).trace)
        = (detVals (DownloadThread_run env.dl).trace).map
            (fun q => 20 + (3 * q) / 5) :=
    detVals_scaled _
  have hs_ch : List.Chain' (· ≤ ·)
      (detVals (scale_progress (DownloadThread_run env.dl).trace)) := by
    rw [hscaled, List.chain'_map]
    exact hdl.1.imp (fun h => by omega)
  have hs_lb : ∀ v ∈ detVals (scale_progress (DownloadThread_run env.dl).trace),
      20 ≤ v := by
    rw [hscaled]
    intro v hv
    simp only [List.mem_map] at hv
    obtain ⟨q, _, rfl⟩ := hv
    omega
  have hs_ub : ∀ v ∈ detVals (scale_progress (DownloadThread_run env.dl).trace),
      v ≤ 80 := by
    rw [hscaled]
    intro v hv
    simp only [List.mem_map] at hv
    obtain ⟨q, hq, rfl⟩ := hv
    have := hdl.2 q hq
    have h3 : 3 * q ≤ 300 := by omega
    omega
  have hcomp := fun tailL htail =>
    det_comp (scale_progress (DownloadThread_run env.dl).trace)
      tailL hs_ch hs_lb hs_ub htail
  have htry : List.Chain' (· ≤ ·) (detVals (installer_try env id).2.2) ∧
      ∀ v ∈ detVals (installer_try env id).2.2, v ≤ 100 := by
    have e1 : detVals [(10 : Int)] = [10] := rfl
    have e2 : detVals [(10 : Int), 20] = [10, 20] := rfl
    have hA : List.Chain' (· ≤ ·) (detVals [(10 : Int)]) ∧
        ∀ v ∈ detVals [(10 : Int)], v ≤ 100 := by
      rw [e1]
      refine ⟨List.chain'_singleton _, ?_⟩
      intro v hv
      simp at hv
      omega
    have hB : List.Chain' (· ≤ ·) (detVals [(10 : Int), 20]) ∧
        ∀ v ∈ detVals [(10 : Int), 20], v ≤ 100 := by
      rw [e2]
      refine ⟨?_, ?_⟩
      · rw [List.chain'_cons]
        exact ⟨by norm_num, List.chain'_singleton _⟩
      · intro v hv
        simp at hv
        omega
    have hC := hcomp [] (Or.inl rfl)
    rw [List.append_nil] at hC
    have hD := hcomp [(80 : Int)] (Or.inr (Or.inl rfl))
    have hE := hcomp [(80 : Int), 100] (Or.inr (Or.inr rfl))
    unfold installer_try after_extract
    split
    · exact hA
    split
    · exact hA
    split
    · exact hA
    split
    · exact hB
    split
    · exact hC
    split
    · exact hC
    split
    · exact hD
    · exact hE
  have htr_eq : (ExtensionInstaller_run env id).trace = [] ∨
      (ExtensionInstaller_run env id).trace = (installer_try env id).2.2 := by
    unfold ExtensionInstaller_run
    split
    · exact Or.inl rfl
    split
    · exact Or.inl rfl
    simp only
    cases hr : (installer_try env id).1 <;> simp [hr]
  rcases htr_eq with h | h <;> rw [h]
  · exact ⟨by simp [detVals], by simp [detVals]⟩
  · exact htry

theorem run_next_bar_mb (outcomes : Nat → Bool × Msg)
    (traces : Nat → List Int) (total : Nat) (htotal : 0 < total)
    (hT : ∀ i, List.Chain' (· ≤ ·) (detVals (traces i)) ∧
      ∀ v ∈ detVals (traces i), v ≤ 100) :
    ∀ (ids : List Nat) (i count : Nat) (firstErr : Option (Nat × Msg)),
      List.Chain' (· ≤ ·)
        (run_next_installer outcomes traces none total ids i count
          firstErr false).barValues ∧
      ∀ v ∈ (run_next_installer outcomes traces none total ids i count
          firstErr false).barValues, 100 * count / total ≤ v := by
  intro ids
  induction ids with
  | nil =>
    intro i count firstErr
    exact ⟨by simp [run_next_installer, finalize_queue],
      by simp [run_next_installer, finalize_queue]⟩
  | cons id rest ih =>
    intro i count firstErr
    have hbeq : ((none : Option Nat) == some i) = false := rfl
    have hjb : (traces i).filterMap
        (fun p => if 0 ≤ p then some (overall_progress count p.toNat total)
          else none)
        = (detVals (traces i)).map (fun q => overall_progress count q total) :=
      filterMap_det_eq_map (fun q => overall_progress count q total) (traces i)
    simp only [run_next_installer, hbeq, Bool.false_eq_true, if_false, hjb]
    have ihr := ih (i + 1) (count + 1)
      (match firstErr with
       | some e => some e
       | none =>
         if (outcomes i).1 = false then some (id, (outcomes i).2) else none)
    have hub_block : ∀ v ∈ overall_progress count 0 total ::
        (detVals (traces i)).map (fun q => overall_progress count q total),
        v ≤ 100 * (count + 1) / total := by
      intro v hv
      rcases List.mem_cons.mp hv with h | h
      · subst h
        apply Nat.div_le_div_right
        omega
      · simp only [List.mem_map] at h
        obtain ⟨q, hq, rfl⟩ := h
        have := (hT i).2 q hq
        apply Nat.div_le_div_right
        omega
    have hlb_block : ∀ v ∈ overall_progress count 0 total ::
        (detVals (traces i)).map (fun q => overall_progress count q total),
        100 * count / total ≤ v := by
      intro v hv
      rcases List.mem_cons.mp hv with h | h
      · subst h
        apply Nat.div_le_div_right
        omega
      · simp only [List.mem_map] at h
        obtain ⟨q, hq, rfl⟩ := h
        apply Nat.div_le_div_right
        omega
    constructor
    · rw [List.chain'_append]
      refine ⟨?_, ihr.1, ?_⟩
      · rw [List.chain'_cons']
        constructor
        · intro y hy
          have := List.mem_of_mem_head? hy
          simp only [List.mem_map] at this
          obtain ⟨q, _, rfl⟩ := this
          apply Nat.div_le_div_right
          omega
        · rw [List.chain'_map]
          refine (hT i).1.imp ?_
          intro a b hab
          apply Nat.div_le_div_right
          omega
      · intro x hx y hy
        have hx2 := List.mem_of_mem_getLast? hx
        have hy2 := List.mem_of_mem_head? hy
        have h1 := hub_block x hx2
        have h2 := ihr.2 y hy2
        omega
    · intro v hv
      rw [List.mem_append] at hv
      rcases hv with h | h
      · exact hlb_block v h
      · have h2 := ihr.2 v h
        have h3 : 100 * count / total ≤ 100 * (count + 1) / total := by
          apply Nat.div_le_div_right
          omega
        omega

/-- C9: overall queue progress shown on the progress bar equals
`int(100 * (completedCount + currentJobFraction) / total)` — in exact
arithmetic, the floor of the specification's formula, where
`currentJobFraction` is the current job percentage over 100 — and across
a whole uncancelled queue run driven by the modelled installers (with
honest content lengths, i.e. each transfer's bytes never exceed its
declared total), the sequence of determinate progress-bar values is
monotonically non-decreasing, with no per-job resets. -/
theorem queue_progress_formula_monotone (ids : List Nat)
    (envs : Nat → JobEnv) (hne : ids ≠ [])
    (honest : ∀ i, (envs i).dl.totalSize = 0 ∨
      (envs i).dl.chunks.sum ≤ (envs i).dl.totalSize)
    (outcomes : Nat → Bool × Msg) (count p : Nat) :
    ((overall_progress count p ids.length : ℤ)
        = ⌊(100 * ((count : ℚ) + (p : ℚ) / 100)) / (ids.length : ℚ)⌋) ∧
    List.Chain' (· ≤ ·)
      (install_extensions_logic ids outcomes
        (fun i => (ExtensionInstaller_run (envs i) (ids.getD i 0)).trace)
        none).barValues := by
  have hn : 0 < ids.length := List.length_pos.mpr hne
  constructor
  · have harg : (100 * ((count : ℚ) + (p : ℚ) / 100)) / (ids.length : ℚ)
        = ((100 * count + p : ℕ) : ℚ) / ((ids.length : ℕ) : ℚ) := by
      push_cast
      ring
    rw [harg]
    have h0 : (0 : ℚ) ≤ ((100 * count + p : ℕ) : ℚ) / ((ids.length : ℕ) : ℚ) := by
      positivity
    rw [← Int.natCast_floor_eq_floor h0, Nat.floor_div_eq_div]
    rfl
  · cases ids with
    | nil => exact absurd rfl hne
    | cons id rest =>
      have hT : ∀ i, List.Chain' (· ≤ ·)
          (detVals ((ExtensionInstaller_run (envs i)
            ((id :: rest).getD i 0)).trace)) ∧
          ∀ v ∈ detVals ((ExtensionInstaller_run (envs i)
            ((id :: rest).getD i 0)).trace), v ≤ 100 :=
        fun i => installer_trace_mb (envs i) ((id :: rest).getD i 0) (honest i)
      have hmb := run_next_bar_mb outcomes
        (fun i => (ExtensionInstaller_run (envs i) ((id :: rest).getD i 0)).trace)
        (id :: rest).length (by simp) hT (id :: rest) 0 0 none
      rw [show (install_extensions_logic (id :: rest) outcomes
          (fun i => (ExtensionInstaller_run (envs i)
            ((id :: rest).getD i 0)).trace) none).barValues
          = 0 :: (run_next_installer outcomes
            (fun i => (ExtensionInstaller_run (envs i)
              ((id :: rest).getD i 0)).trace) none (id :: rest).length
            (id :: rest) 0 0 none false).barValues from rfl]
      rw [List.chain'_cons']
      exact ⟨fun y _ => Nat.zero_le y, hmb.1⟩

/-- Witness for C9 at a one-asset queue with a fully successful job with a
known content length. -/
theorem queue_progress_formula_monotone_witness :
    ((overall_progress 0 50 ([5] : List Nat).length : ℤ)
        = ⌊(100 * ((0 : ℚ) + (50 : ℚ) / 100)) / (([5] : List Nat).length : ℚ)⌋) ∧
    List.Chain' (· ≤ ·)
      (install_extensions_logic [5] (fun _ => (true, Msg.cancelledBeforeStart))
        (fun i => (ExtensionInstaller_run ((fun _ => corruptArchiveEnv) i)
          (([5] : List Nat).getD i 0)).trace) none).barValues :=
  queue_progress_formula_monotone [5] (fun _ => corruptArchiveEnv)
    (by simp)
    (by
      intro i
      exact Or.inr (by
        show corruptArchiveEnv.dl.chunks.sum ≤ corruptArchiveEnv.dl.totalSize
        decide))
    (fun _ => (true, Msg.cancelledBeforeStart)) 0 50

end GodotLauncher
